import Mathlib

/-!
Verification of the encrypted backup subsystem of `rgb-lib`
(`src/wallet/backup.rs`), as a shallow embedding in Lean 4.

Bytes are modelled as `Nat` (with `% 256` where the source computes bytes).
Strings read from or written to disk are modelled as byte lists.  Filesystem
I/O errors, logging and random generation are out of scope: random values
(salt, nonce) are passed in as parameters, and file contents are threaded
explicitly.  The external crates (`scrypt`, `chacha20poly1305`, `zip`,
`serde_json`) are modelled by executable functions that reproduce the
behaviour the backup code relies on (lengths, validation, round-trips,
failure conditions); each such model is marked in its doc comment.
-/

/-- A byte of file content.  The source works with `u8`; the model uses `Nat`
and reduces modulo 256 wherever the source produces an actual byte. -/
abbrev Byte := Nat

/-- Error kinds of the library's `Error` type.  The enum itself lives outside
the provided sources (only its uses appear in `backup.rs`); its variants are
modelled from the spec's error taxonomy (§7), which also lists `InvalidParams`
and `NoPasswordHash` as kinds distinct from `Internal`. -/
inductive Error where
  | FileAlreadyExists (path : String)
  | IOError (details : String)
  | Internal (details : String)
  | InvalidParams (details : String)
  | NoPasswordHash
  | UnsupportedBackupVersion (version : String)
  | WrongPassword
deriving DecidableEq, Repr

/-- Result of running a piece of the backup code: normal return, an `Error`
return, or a Rust panic (the source contains slice indexing and
`clone_from_slice` calls that can panic). -/
inductive Res (α : Type) where
  | ok (a : α)
  | err (e : Error)
  | panicked (msg : String)
deriving DecidableEq, Repr

/-- `BACKUP_BUFFER_LEN_ENCRYPT` from the source: plaintext bytes per
non-final segment. -/
def BACKUP_BUFFER_LEN_ENCRYPT : Nat := 239

/-- `BACKUP_BUFFER_LEN_DECRYPT` from the source: on-disk bytes per non-final
segment (`239 + 16`). -/
def BACKUP_BUFFER_LEN_DECRYPT : Nat := BACKUP_BUFFER_LEN_ENCRYPT + 16

/-- `BACKUP_KEY_LENGTH` from the source. -/
def BACKUP_KEY_LENGTH : Nat := 32

/-- `BACKUP_NONCE_LENGTH` from the source. -/
def BACKUP_NONCE_LENGTH : Nat := 19

/-- `BACKUP_VERSION` from the source. -/
def BACKUP_VERSION : Nat := 1

/-- `ScryptParams` from the source: the serialized key-derivation
parameters.  `log_n` is a `u8`, `r` and `p` are `u32`, `len` a `usize` in the
source; the model uses `Nat`. -/
structure ScryptParams where
  log_n : Nat
  r : Nat
  p : Nat
  len : Nat
  salt : List Byte
deriving DecidableEq, Repr

/-- Model of the external `scrypt::Params::new` validator on a 64-bit
target: `log_n` below the word width, `r` and `p` nonzero, and the output
length within the `password_hash` `Output` bounds `10 ..= 64`. -/
def scryptParamsValid (log_n r p len : Nat) : Bool :=
  decide (log_n < 64) && decide (0 < r) && decide (0 < p)
    && decide (10 ≤ len) && decide (len ≤ 64)

/-- Display message of the external `scrypt` `InvalidParams` error value. -/
def scryptInvalidMsg : String := "invalid scrypt parameters"

/-- `TryInto<Params> for ScryptParams` from the source: a validation failure
is mapped to `Error::Internal` with the message prefixed by
`"invalid params "`. -/
def tryIntoParams (sp : ScryptParams) : Res Unit :=
  if scryptParamsValid sp.log_n sp.r sp.p sp.len then Res.ok ()
  else Res.err (Error.Internal ("invalid params " ++ scryptInvalidMsg))

/-- Whether a byte is in the B64 alphabet accepted by the external
`password_hash` `Salt::from_b64` (letters, digits, `+`, `/`). -/
def isB64Byte (b : Byte) : Bool :=
  (decide (65 ≤ b) && decide (b ≤ 90)) || (decide (97 ≤ b) && decide (b ≤ 122))
    || (decide (48 ≤ b) && decide (b ≤ 57)) || decide (b = 43) || decide (b = 47)

/-- Model of the external `Salt::from_b64`: the salt string is accepted when
its length is within `4 ..= 64` and every byte is in the B64 alphabet; the
accepted salt is passed through textually (the source feeds the stored salt
string directly to the KDF). -/
def saltFromB64 (s : List Byte) : Option (List Byte) :=
  if 4 ≤ s.length ∧ s.length ≤ 64 ∧ s.all isB64Byte then some s else none

/-- Model of the external scrypt KDF (`Scrypt.hash_password_customized`): a
deterministic function of password, salt and cost parameters whose output
length equals the requested `len`.  Only determinism and the output length
matter to the claims. -/
def hashPassword (password salt : List Byte) (log_n r p len : Nat) : List Byte :=
  (List.range len).map
    (fun i => (password.sum * 3 + salt.sum * 5 + log_n * 7 + r * 11 + p * 13 + i * 17 + 1) % 256)

/-- `CypherSecrets` from the source: the derived AEAD key and the 19-byte
nonce. -/
structure CypherSecrets where
  key : List Byte
  nonce : List Byte
deriving DecidableEq, Repr

/-- `_get_cypher_secrets` from the source, in source order: parse the salt
(`Salt::from_b64`, failure → `Internal`), validate the scrypt parameters
(`try_into`, failure → `Internal`), run the KDF, build the key with
`Key::clone_from_slice` (which panics when the hash length is not 32), and
slice the nonce string as `nonce_bytes[0..19]` (which panics when the string
holds fewer than 19 bytes).  The scrypt hash output is always present, so the
`NoPasswordHash` branch of the source is unreachable in the model. -/
def getCypherSecrets (password : List Byte) (sp : ScryptParams) (nonceStr : List Byte) :
    Res CypherSecrets :=
  match saltFromB64 sp.salt with
  | none => Res.err (Error.Internal "salt b64 decode error")
  | some salt =>
    match tryIntoParams sp with
    | Res.err e => Res.err e
    | Res.panicked m => Res.panicked m
    | Res.ok _ =>
      let hash := hashPassword password salt sp.log_n sp.r sp.p sp.len
      if hash.length = 32 then
        if BACKUP_NONCE_LENGTH ≤ nonceStr.length then
          Res.ok ⟨hash, nonceStr.take BACKUP_NONCE_LENGTH⟩
        else
          Res.panicked "slice index out of range"
      else
        Res.panicked "length mismatch in clone_from_slice"

/-- One byte of the model authentication tag: a deterministic function of
key, segment counter, last-segment flag and plaintext. -/
def tagByte (key : List Byte) (ctr : Nat) (last : Bool) (pt : List Byte) (i : Nat) : Byte :=
  (key.sum * 7 + ctr * 131 + (if last then 17 else 0) + pt.sum * 3 + pt.length * 29 + i) % 256

/-- The 16-byte model authentication tag of a segment. -/
def sealTag (key : List Byte) (ctr : Nat) (last : Bool) (pt : List Byte) : List Byte :=
  (List.range 16).map (tagByte key ctr last pt)

/-- Model of the external STREAM/BE32 AEAD `encrypt_next` / `encrypt_last`
(XChaCha20-Poly1305): the on-disk segment is the plaintext followed by a
16-byte tag bound to key, counter and last-flag, so the output is 16 bytes
longer than the input, exactly as in the source's construction. -/
def sealSegment (key : List Byte) (ctr : Nat) (last : Bool) (pt : List Byte) : List Byte :=
  pt ++ sealTag key ctr last pt

/-- Model of the external STREAM/BE32 AEAD `decrypt_next` / `decrypt_last`:
fails on segments shorter than the 16-byte tag and on tag mismatch,
otherwise returns the plaintext part. -/
def openSeg (key : List Byte) (ctr : Nat) (last : Bool) (ct : List Byte) :
    Option (List Byte) :=
  if ct.length < 16 then none
  else
    let pt := ct.take (ct.length - 16)
    if ct.drop (ct.length - 16) = sealTag key ctr last pt then some pt else none

/-- Fuel-indexed encrypt loop of `_encrypt_file`: read up to 239 plaintext
bytes; a full read goes through `encrypt_next` and the loop continues, a
short read (including an empty one) goes through `encrypt_last` and the loop
terminates.  Segments are returned in emission order.  The fuel only bounds
the iteration count; `encryptSegs` supplies enough fuel for the loop to run
to completion. -/
def encryptSegsGo (key : List Byte) : Nat → Nat → List Byte → List (List Byte)
  | 0, _, _ => []
  | fuel + 1, ctr, input =>
    if BACKUP_BUFFER_LEN_ENCRYPT ≤ input.length then
      sealSegment key ctr false (input.take BACKUP_BUFFER_LEN_ENCRYPT)
        :: encryptSegsGo key fuel (ctr + 1) (input.drop BACKUP_BUFFER_LEN_ENCRYPT)
    else
      [sealSegment key ctr true input]

/-- The segment sequence produced by the `_encrypt_file` loop. -/
def encryptSegs (key : List Byte) (ctr : Nat) (input : List Byte) : List (List Byte) :=
  encryptSegsGo key (input.length + 1) ctr input

/-- The byte stream written to `backup.enc`: the emitted segments in
order. -/
def encryptStream (key : List Byte) (ctr : Nat) (input : List Byte) : List Byte :=
  (encryptSegs key ctr input).flatten

/-- Fuel-indexed decrypt loop of `_decrypt_file`: read up to 255 bytes; a
full read goes through `decrypt_next` (failure → `WrongPassword`) and the
loop continues, a zero read terminates successfully, and a short nonzero
read goes through `decrypt_last` (failure → `WrongPassword`) and
terminates.  The fuel only bounds the iteration count; `decryptLoop`
supplies enough fuel for the loop to run to completion. -/
def decryptGo (key : List Byte) : Nat → Nat → List Byte → Res (List Byte)
  | 0, _, _ => Res.ok []
  | fuel + 1, ctr, input =>
    if BACKUP_BUFFER_LEN_DECRYPT ≤ input.length then
      match openSeg key ctr false (input.take BACKUP_BUFFER_LEN_DECRYPT) with
      | none => Res.err Error.WrongPassword
      | some pt =>
        match decryptGo key fuel (ctr + 1) (input.drop BACKUP_BUFFER_LEN_DECRYPT) with
        | Res.ok rest => Res.ok (pt ++ rest)
        | r => r
    else if input.length = 0 then Res.ok []
    else
      match openSeg key ctr true input with
      | none => Res.err Error.WrongPassword
      | some pt => Res.ok pt

/-- The decrypt loop of `_decrypt_file` over a full ciphertext stream. -/
def decryptLoop (key : List Byte) (ctr : Nat) (input : List Byte) : Res (List Byte) :=
  decryptGo key (input.length + 1) ctr input

/-- `_encrypt_file` from the source: derive the secrets, then run the
segment loop from counter 0.  (The deletion of the plaintext file is a
filesystem effect outside the model.) -/
def encryptFile (password : List Byte) (sp : ScryptParams) (nonceStr : List Byte)
    (plaintext : List Byte) : Res (List Byte) :=
  match getCypherSecrets password sp nonceStr with
  | Res.ok cs => Res.ok (encryptStream cs.key 0 plaintext)
  | Res.err e => Res.err e
  | Res.panicked m => Res.panicked m

/-- `_decrypt_file` from the source: derive the secrets, then run the
decrypt loop from counter 0. -/
def decryptFile (password : List Byte) (sp : ScryptParams) (nonceStr : List Byte)
    (ciphertext : List Byte) : Res (List Byte) :=
  match getCypherSecrets password sp nonceStr with
  | Res.ok cs => decryptLoop cs.key 0 ciphertext
  | Res.err e => Res.err e
  | Res.panicked m => Res.panicked m

-- ### Basic lemmas about the AEAD model and the loops

lemma sealTag_length (key : List Byte) (ctr : Nat) (last : Bool) (pt : List Byte) :
    (sealTag key ctr last pt).length = 16 := by
  simp [sealTag]

lemma sealSegment_length (key : List Byte) (ctr : Nat) (last : Bool) (pt : List Byte) :
    (sealSegment key ctr last pt).length = pt.length + 16 := by
  simp [sealSegment, sealTag_length]

lemma openSeg_sealSegment (key : List Byte) (ctr : Nat) (last : Bool) (pt : List Byte) :
    openSeg key ctr last (sealSegment key ctr last pt) = some pt := by
  have hlen : (sealSegment key ctr last pt).length = pt.length + 16 :=
    sealSegment_length key ctr last pt
  have htake : (sealSegment key ctr last pt).take (pt.length + 16 - 16) = pt := by
    simpa [sealSegment] using List.take_left pt (sealTag key ctr last pt)
  have hdrop : (sealSegment key ctr last pt).drop (pt.length + 16 - 16) =
      sealTag key ctr last pt := by
    simpa [sealSegment] using List.drop_left pt (sealTag key ctr last pt)
  simp only [Nat.add_sub_cancel] at htake hdrop
  simp [openSeg, hlen, htake, hdrop]

lemma encryptSegsGo_congr (key : List Byte) :
    ∀ fuel₁ fuel₂ ctr (input : List Byte),
      input.length < fuel₁ * BACKUP_BUFFER_LEN_ENCRYPT →
      input.length < fuel₂ * BACKUP_BUFFER_LEN_ENCRYPT →
      encryptSegsGo key fuel₁ ctr input = encryptSegsGo key fuel₂ ctr input := by
  have e : BACKUP_BUFFER_LEN_ENCRYPT = 239 := rfl
  intro fuel₁
  induction fuel₁ with
  | zero =>
    intro fuel₂ ctr input h₁ _
    simp at h₁
  | succ f ih =>
    intro fuel₂ ctr input h₁ h₂
    match fuel₂ with
    | 0 => simp at h₂
    | f₂ + 1 =>
      simp only [encryptSegsGo]
      by_cases hbig : BACKUP_BUFFER_LEN_ENCRYPT ≤ input.length
      · have hlen : (input.drop BACKUP_BUFFER_LEN_ENCRYPT).length =
            input.length - BACKUP_BUFFER_LEN_ENCRYPT := List.length_drop _ _
        have hrec := ih f₂ (ctr + 1) (input.drop BACKUP_BUFFER_LEN_ENCRYPT)
          (by rw [hlen, e]; rw [e] at h₁; omega)
          (by rw [hlen, e]; rw [e] at h₂; omega)
        simp [hbig, hrec]
      · simp [hbig]

lemma encryptSegs_eq (key : List Byte) (ctr : Nat) (input : List Byte) :
    encryptSegs key ctr input =
      if BACKUP_BUFFER_LEN_ENCRYPT ≤ input.length then
        sealSegment key ctr false (input.take BACKUP_BUFFER_LEN_ENCRYPT)
          :: encryptSegs key (ctr + 1) (input.drop BACKUP_BUFFER_LEN_ENCRYPT)
      else
        [sealSegment key ctr true input] := by
  have e : BACKUP_BUFFER_LEN_ENCRYPT = 239 := rfl
  by_cases hbig : BACKUP_BUFFER_LEN_ENCRYPT ≤ input.length
  · have hlen : (input.drop BACKUP_BUFFER_LEN_ENCRYPT).length =
        input.length - BACKUP_BUFFER_LEN_ENCRYPT := List.length_drop _ _
    have hrec : encryptSegsGo key input.length (ctr + 1)
          (input.drop BACKUP_BUFFER_LEN_ENCRYPT) =
        encryptSegs key (ctr + 1) (input.drop BACKUP_BUFFER_LEN_ENCRYPT) := by
      apply encryptSegsGo_congr key input.length
        ((input.drop BACKUP_BUFFER_LEN_ENCRYPT).length + 1) (ctr + 1)
        (input.drop BACKUP_BUFFER_LEN_ENCRYPT)
      · rw [hlen, e]; rw [e] at hbig; omega
      · rw [hlen, e]; omega
    show encryptSegsGo key (input.length + 1) ctr input = _
    simp only [encryptSegsGo]
    rw [if_pos hbig, if_pos hbig, hrec]
  · show encryptSegsGo key (input.length + 1) ctr input = _
    simp only [encryptSegsGo]
    rw [if_neg hbig, if_neg hbig]

lemma decryptGo_congr (key : List Byte) :
    ∀ fuel₁ fuel₂ ctr (input : List Byte),
      input.length < fuel₁ * BACKUP_BUFFER_LEN_DECRYPT →
      input.length < fuel₂ * BACKUP_BUFFER_LEN_DECRYPT →
      decryptGo key fuel₁ ctr input = decryptGo key fuel₂ ctr input := by
  have e : BACKUP_BUFFER_LEN_DECRYPT = 255 := rfl
  intro fuel₁
  induction fuel₁ with
  | zero =>
    intro fuel₂ ctr input h₁ _
    simp at h₁
  | succ f ih =>
    intro fuel₂ ctr input h₁ h₂
    match fuel₂ with
    | 0 => simp at h₂
    | f₂ + 1 =>
      simp only [decryptGo]
      by_cases hbig : BACKUP_BUFFER_LEN_DECRYPT ≤ input.length
      · have hlen : (input.drop BACKUP_BUFFER_LEN_DECRYPT).length =
            input.length - BACKUP_BUFFER_LEN_DECRYPT := List.length_drop _ _
        have hrec := ih f₂ (ctr + 1) (input.drop BACKUP_BUFFER_LEN_DECRYPT)
          (by rw [hlen, e]; rw [e] at h₁; omega)
          (by rw [hlen, e]; rw [e] at h₂; omega)
        simp [hbig, hrec]
      · simp [hbig]

lemma decryptLoop_eq (key : List Byte) (ctr : Nat) (input : List Byte) :
    decryptLoop key ctr input =
      if BACKUP_BUFFER_LEN_DECRYPT ≤ input.length then
        match openSeg key ctr false (input.take BACKUP_BUFFER_LEN_DECRYPT) with
        | none => Res.err Error.WrongPassword
        | some pt =>
          match decryptLoop key (ctr + 1) (input.drop BACKUP_BUFFER_LEN_DECRYPT) with
          | Res.ok rest => Res.ok (pt ++ rest)
          | r => r
      else if input.length = 0 then Res.ok []
      else
        match openSeg key ctr true input with
        | none => Res.err Error.WrongPassword
        | some pt => Res.ok pt := by
  have e : BACKUP_BUFFER_LEN_DECRYPT = 255 := rfl
  by_cases hbig : BACKUP_BUFFER_LEN_DECRYPT ≤ input.length
  · have hlen : (input.drop BACKUP_BUFFER_LEN_DECRYPT).length =
        input.length - BACKUP_BUFFER_LEN_DECRYPT := List.length_drop _ _
    have hrec : decryptGo key input.length (ctr + 1)
          (input.drop BACKUP_BUFFER_LEN_DECRYPT) =
        decryptLoop key (ctr + 1) (input.drop BACKUP_BUFFER_LEN_DECRYPT) := by
      apply decryptGo_congr key input.length
        ((input.drop BACKUP_BUFFER_LEN_DECRYPT).length + 1) (ctr + 1)
        (input.drop BACKUP_BUFFER_LEN_DECRYPT)
      · rw [hlen, e]; rw [e] at hbig; omega
      · rw [hlen, e]; omega
    show decryptGo key (input.length + 1) ctr input = _
    simp only [decryptGo]
    rw [if_pos hbig, if_pos hbig, hrec]
  · show decryptGo key (input.length + 1) ctr input = _
    simp only [decryptGo]
    rw [if_neg hbig, if_neg hbig]

-- ### Archive model

/-- A path component (the bytes of one file or directory name). -/
abbrev Comp := List Byte

/-- An entry of a zip archive.  Entry names are `/`-joined sequences of
components in the source; the model keeps them as component lists, with
`isDir` standing for the trailing `/` of directory entries. -/
structure ZEntry where
  path : List Comp
  isDir : Bool
  content : List Byte
deriving DecidableEq, Repr

/-- Byte encoding of one component: length-prefixed bytes. -/
def encodeComp (c : Comp) : List Nat := c.length :: c

/-- Byte encoding of a list of components. -/
def encodeComps (cs : List Comp) : List Nat := (cs.map encodeComp).flatten

/-- Byte encoding of an entry path: component count, then the components. -/
def encodePath (p : List Comp) : List Nat := p.length :: encodeComps p

/-- Byte encoding of one archive entry. -/
def encodeEntry (en : ZEntry) : List Nat :=
  encodePath en.path ++ ((if en.isDir then 1 else 0) :: en.content.length :: en.content)

/-- Model of the external `zip` crate writer (`ZipWriter` with Zstd
entries) as used by `_zip_dir`: a self-describing serialization of the
entry sequence.  Only the round-trip with `unzipBytes` matters to the
claims. -/
def zipBytes (es : List ZEntry) : List Nat := es.length :: (es.map encodeEntry).flatten

/-- Read exactly `n` items from the front of a list. -/
def readN : Nat → List Nat → Option (List Nat × List Nat)
  | 0, xs => some ([], xs)
  | _ + 1, [] => none
  | n + 1, x :: xs =>
    match readN n xs with
    | some (a, r) => some (x :: a, r)
    | none => none

/-- Decode one component. -/
def decodeComp : List Nat → Option (Comp × List Nat)
  | [] => none
  | n :: rest => readN n rest

/-- Decode `k` components. -/
def decodeComps : Nat → List Nat → Option (List Comp × List Nat)
  | 0, xs => some ([], xs)
  | k + 1, xs =>
    match decodeComp xs with
    | none => none
    | some (c, r) =>
      match decodeComps k r with
      | none => none
      | some (cs, r') => some (c :: cs, r')

/-- Decode an entry path. -/
def decodePath : List Nat → Option (List Comp × List Nat)
  | [] => none
  | n :: rest => decodeComps n rest

/-- Decode one archive entry. -/
def decodeEntry (xs : List Nat) : Option (ZEntry × List Nat) :=
  match decodePath xs with
  | none => none
  | some (p, r₁) =>
    match r₁ with
    | [] => none
    | b :: r₂ =>
      match r₂ with
      | [] => none
      | n :: r₃ =>
        match readN n r₃ with
        | none => none
        | some (content, rest) => some (⟨p, b == 1, content⟩, rest)

/-- Decode `k` archive entries. -/
def decodeEntriesGo : Nat → List Nat → Option (List ZEntry × List Nat)
  | 0, xs => some ([], xs)
  | k + 1, xs =>
    match decodeEntry xs with
    | none => none
    | some (en, r) =>
      match decodeEntriesGo k r with
      | none => none
      | some (es, r') => some (en :: es, r')

/-- Model of the external `zip` crate reader (`ZipArchive::new` plus entry
iteration) as used by `_unzip`: parse the serialized entry sequence, failing
on malformed input. -/
def unzipBytes (xs : List Nat) : Option (List ZEntry) :=
  match xs with
  | [] => none
  | n :: rest =>
    match decodeEntriesGo n rest with
    | some (es, []) => some es
    | _ => none

/-- The `.` path component. -/
def dotC : Comp := [46]

/-- The `..` path component. -/
def dotdotC : Comp := [46, 46]

/-- Component-wise normalization behind the external
`ZipFile::enclosed_name` check combined with the path join of `_unzip`:
`..` pops one accepted component and fails when there is nothing to pop
(the resolved path would escape the output directory), empty and `.`
components are dropped, a component holding a NUL byte is rejected, and any
other component is accepted.  Returns the resolved relative path. -/
def normComps : List Comp → List Comp → Option (List Comp)
  | acc, [] => some acc
  | acc, c :: rest =>
    if c = dotdotC then
      match acc with
      | [] => none
      | _ => normComps acc.dropLast rest
    else if c = [] ∨ c = dotC then normComps acc rest
    else if c.contains 0 then none
    else normComps (acc ++ [c]) rest

/-- Model of the external `ZipFile::enclosed_name`: `none` when the entry
name has no safe normalized form (path escape or NUL), otherwise the
resolved path relative to the extraction directory. -/
def enclosedName (p : List Comp) : Option (List Comp) := normComps [] p

/-- A filesystem action performed under the extraction directory by
`_unzip`: creating a directory or writing a file. -/
inductive FsAction where
  | mkdir (path : List Comp)
  | writeFile (path : List Comp) (content : List Byte)
deriving DecidableEq, Repr

/-- The body of one iteration of the `_unzip` loop: an entry whose
`enclosed_name` is `None` is skipped (`continue`), a directory entry
becomes `create_dir_all`, and a file entry is stream-copied to the resolved
path.  (Creation of missing parent directories is implicit in the model's
`writeFile`.) -/
def entryAction (en : ZEntry) : Option FsAction :=
  match enclosedName en.path with
  | none => none
  | some p => if en.isDir then some (FsAction.mkdir p) else some (FsAction.writeFile p en.content)

/-- The `_unzip` loop over the parsed entries, in stored order.  Within the
modelled scope (I/O errors aside) every entry either produces its action or
is skipped; the `Res` return mirrors the source's fallible signature. -/
def unzipEntries : List ZEntry → Res (List FsAction)
  | [] => Res.ok []
  | en :: rest =>
    match unzipEntries rest with
    | Res.ok acts => Res.ok ((entryAction en).toList ++ acts)
    | r => r

-- ### Directory walking and the orchestrator

/-- A node met while walking the wallet directory: a regular file with its
content, or a subdirectory.  Paths are relative to the walked root; the
walk list is in `WalkDir` emission order and the root itself is represented
as `Node.dir []`. -/
inductive Node where
  | file (path : List Comp) (content : List Byte)
  | dir (path : List Comp)
deriving DecidableEq, Repr

/-- The path of a node. -/
def nodePath : Node → List Comp
  | Node.file p _ => p
  | Node.dir p => p

/-- `Path::ends_with` against a single-component file name, as used for the
log-file filter (`path.ends_with(LOG_FILE)`). -/
def pathEndsWith (p : List Comp) (name : Comp) : Bool := p.getLast? == some name

/-- The archive entry `_zip_dir` produces for one walked node: files whose
final component is the wallet's designated log filename are skipped, other
files are stored under their name relative to the prefix (the walked root,
or its parent when `keepTop` is set, which prepends the top component), and
directories with a nonempty relative name become directory entries. -/
def nodeEntry (keepTop : Bool) (top : Comp) (logName : Comp) (n : Node) : Option ZEntry :=
  match n with
  | Node.file p c =>
    if pathEndsWith p logName then none
    else some ⟨if keepTop then top :: p else p, false, c⟩
  | Node.dir p =>
    if (if keepTop then top :: p else p) = ([] : List Comp) then none
    else some ⟨if keepTop then top :: p else p, true, []⟩

/-- `_zip_dir` from the source: walk the tree and collect the entries
(the designated log filename is taken as a parameter; the `LOG_FILE`
constant lives in the wallet module outside the provided sources). -/
def zipDir (top : Comp) (nodes : List Node) (keepTop : Bool) (logName : Comp) : List ZEntry :=
  nodes.filterMap (nodeEntry keepTop top logName)

/-- Entry name `backup.enc` of the outer container. -/
def encName : Comp := "backup.enc".data.map Char.toNat

/-- Entry name `backup.nonce` of the outer container. -/
def nonceName : Comp := "backup.nonce".data.map Char.toNat

/-- Entry name `backup.scrypt_params` of the outer container. -/
def paramsName : Comp := "backup.scrypt_params".data.map Char.toNat

/-- Entry name `backup.version` of the outer container. -/
def versionName : Comp := "backup.version".data.map Char.toNat

/-- Model of `serde_json::to_string` on `ScryptParams` as an invertible
serialization: the four numeric fields followed by the length-prefixed
salt.  Only the round-trip with `decodeScryptParams` matters to the
claims. -/
def encodeScryptParams (sp : ScryptParams) : List Byte :=
  sp.log_n :: sp.r :: sp.p :: sp.len :: sp.salt.length :: sp.salt

/-- Model of `serde_json::from_str` on `ScryptParams`, inverse of
`encodeScryptParams`; `none` on malformed input. -/
def decodeScryptParams (xs : List Byte) : Option ScryptParams :=
  match xs with
  | ln :: r :: p :: len :: saltLen :: rest =>
    match readN saltLen rest with
    | some (salt, []) => some ⟨ln, r, p, len, salt⟩
    | _ => none
  | _ => none

/-- Decimal ASCII serialization of the version byte
(`BACKUP_VERSION.to_string()`). -/
def versionBytes (v : Nat) : List Byte := (toString v).data.map Char.toNat

/-- Rust's `str::parse::<u8>` on a byte string: an optional leading `+`,
then one or more ASCII digits whose value fits in eight bits. -/
def parseU8 (s : List Byte) : Option Nat :=
  let digits := match s with
    | 43 :: rest => rest
    | _ => s
  if digits = [] then none
  else if digits.all (fun b => decide (48 ≤ b) && decide (b ≤ 57)) then
    let v := digits.foldl (fun acc b => acc * 10 + (b - 48)) 0
    if v ≤ 255 then some v else none
  else none

/-- The pure pipeline of `Wallet::backup_custom_params` after the
target-existence check: zip the wallet directory keeping its top component,
encrypt the zip (which deletes the plaintext zip from the scratch
directory), write the nonce, scrypt-params and version sidecars, and zip
the scratch directory without its top component into the outer container.
The scratch directory holds exactly `backup.enc`, `backup.nonce`,
`backup.scrypt_params` and `backup.version` at that point, walked in name
order. -/
def backupContainer (walletName : Comp) (nodes : List Node) (password : List Byte)
    (sp : ScryptParams) (nonceStr : List Byte) (logName : Comp) : Res (List Byte) :=
  let innerEntries := zipDir walletName (Node.dir [] :: nodes) true logName
  match encryptFile password sp nonceStr (zipBytes innerEntries) with
  | Res.ok encBytes =>
    let outerNodes : List Node :=
      [Node.dir [],
       Node.file [encName] encBytes,
       Node.file [nonceName] nonceStr,
       Node.file [paramsName] (encodeScryptParams sp),
       Node.file [versionName] (versionBytes BACKUP_VERSION)]
    Res.ok (zipBytes (zipDir walletName outerNodes false logName))
  | Res.err e => Res.err e
  | Res.panicked m => Res.panicked m

/-- A flat filesystem for the backup target's parent directory: paths
mapped to file contents. -/
abbrev FS := List (String × List Byte)

/-- `Wallet::backup_custom_params` from the source, as a state transformer
on the target directory: the very first filesystem interaction is the
`backup_file.exists()` check, which returns `FileAlreadyExists` before
anything is created or written; otherwise the container is produced and
written to the target path.  The scratch directory is destroyed on every
exit and does not appear in the resulting state. -/
def backupCustomParams (fs : FS) (backupPath : String) (walletName : Comp)
    (nodes : List Node) (password : List Byte) (sp : ScryptParams)
    (nonceStr : List Byte) (logName : Comp) : Res Unit × FS :=
  if (fs.lookup backupPath).isSome then
    (Res.err (Error.FileAlreadyExists backupPath), fs)
  else
    match backupContainer walletName nodes password sp nonceStr logName with
    | Res.ok bytes => (Res.ok (), (backupPath, bytes) :: fs)
    | Res.err e => (Res.err e, fs)
    | Res.panicked m => (Res.panicked m, fs)

/-- `read_to_string` of a sidecar file of the scratch directory, after the
outer container has been unzipped into it: the content of the file action
written at the single-component path `[name]`. -/
def readSidecar (acts : List FsAction) (name : Comp) : Option (List Byte) :=
  acts.findSome? (fun a =>
    match a with
    | FsAction.writeFile p c => if p = [name] then some c else none
    | FsAction.mkdir _ => none)

/-- `restore_backup` from the source, over the bytes of the backup file:
unzip the outer container into the scratch directory, read the nonce, the
scrypt params (JSON, parse failure → `Internal`) and the version (u8 parse
failure → `InternalError::Unexpected`), reject any version other than
`BACKUP_VERSION` with `UnsupportedBackupVersion` carrying the stringified
value, decrypt `backup.enc` into the inner zip, and unzip it into the
target directory, returning the actions performed there.  (Logger setup
and `create_dir_all` are filesystem effects outside the model.) -/
def restoreBackup (containerBytes : List Byte) (password : List Byte) :
    Res (List FsAction) :=
  match unzipBytes containerBytes with
  | none => Res.err (Error.Internal "invalid Zip archive")
  | some outerEntries =>
    match unzipEntries outerEntries with
    | Res.err e => Res.err e
    | Res.panicked m => Res.panicked m
    | Res.ok tmpActs =>
      match readSidecar tmpActs nonceName with
      | none => Res.err (Error.IOError "No such file or directory")
      | some nonceStr =>
        match readSidecar tmpActs paramsName with
        | none => Res.err (Error.IOError "No such file or directory")
        | some paramsB =>
          match decodeScryptParams paramsB with
          | none => Res.err (Error.Internal "JSON parse error")
          | some sp =>
            match readSidecar tmpActs versionName with
            | none => Res.err (Error.IOError "No such file or directory")
            | some versionB =>
              match parseU8 versionB with
              | none => Res.err (Error.Internal "unexpected")
              | some version =>
                if version ≠ BACKUP_VERSION then
                  Res.err (Error.UnsupportedBackupVersion (toString version))
                else
                  match readSidecar tmpActs encName with
                  | none => Res.err (Error.IOError "No such file or directory")
                  | some encBytes =>
                    match decryptFile password sp nonceStr encBytes with
                    | Res.err e => Res.err e
                    | Res.panicked m => Res.panicked m
                    | Res.ok innerBytes =>
                      match unzipBytes innerBytes with
                      | none => Res.err (Error.Internal "invalid Zip archive")
                      | some innerEntries => unzipEntries innerEntries

/-- `backup` followed by `restore` on the produced file, propagating any
backup failure. -/
def backupThenRestore (walletName : Comp) (nodes : List Node) (password : List Byte)
    (sp : ScryptParams) (nonceStr : List Byte) (logName : Comp) : Res (List FsAction) :=
  match backupContainer walletName nodes password sp nonceStr logName with
  | Res.ok c => restoreBackup c password
  | Res.err e => Res.err e
  | Res.panicked m => Res.panicked m

/-- The tree `restore` is expected to rebuild under the target directory:
the wallet directory itself (its top component is kept by the inner zip),
every subdirectory, and every file of the original wallet directory except
those named by the designated log filename, with unchanged contents. -/
def restoredTree (walletName : Comp) (nodes : List Node) (logName : Comp) : List FsAction :=
  FsAction.mkdir [walletName] ::
    nodes.filterMap (fun n =>
      match n with
      | Node.file p c =>
        if pathEndsWith p logName then none
        else some (FsAction.writeFile (walletName :: p) c)
      | Node.dir p => some (FsAction.mkdir (walletName :: p)))

/-- A path component that survives `enclosed_name` normalization
unchanged: nonempty, not `.` or `..`, and free of NUL bytes.  (Components
also cannot hold `/`, which the component-list representation makes
implicit.) -/
def cleanComp (c : Comp) : Bool :=
  !(c == []) && !(c == dotC) && !(c == dotdotC) && !(c.contains 0)

-- ### Round-trip lemmas

lemma decryptLoop_encryptStream (key : List Byte) (pt : List Byte) (ctr : Nat) :
    decryptLoop key ctr (encryptStream key ctr pt) = Res.ok pt := by
  have e : BACKUP_BUFFER_LEN_ENCRYPT = 239 := rfl
  have e' : BACKUP_BUFFER_LEN_DECRYPT = 255 := rfl
  have main : ∀ n (pt : List Byte) ctr, pt.length < n →
      decryptLoop key ctr (encryptStream key ctr pt) = Res.ok pt := by
    intro n
    induction n with
    | zero => intro pt ctr h; exact absurd h (Nat.not_lt_zero _)
    | succ m ih =>
      intro pt ctr h
      by_cases hbig : BACKUP_BUFFER_LEN_ENCRYPT ≤ pt.length
      · have hsl : (sealSegment key ctr false (pt.take BACKUP_BUFFER_LEN_ENCRYPT)).length
            = 255 := by
          rw [sealSegment_length, List.length_take]
          rw [e] at hbig ⊢
          omega
        have hstream : encryptStream key ctr pt =
            sealSegment key ctr false (pt.take BACKUP_BUFFER_LEN_ENCRYPT) ++
              encryptStream key (ctr + 1) (pt.drop BACKUP_BUFFER_LEN_ENCRYPT) := by
          rw [encryptStream, encryptSegs_eq, if_pos hbig]
          simp [encryptStream]
        rw [hstream, decryptLoop_eq]
        have hcond : BACKUP_BUFFER_LEN_DECRYPT ≤
            (sealSegment key ctr false (pt.take BACKUP_BUFFER_LEN_ENCRYPT) ++
              encryptStream key (ctr + 1) (pt.drop BACKUP_BUFFER_LEN_ENCRYPT)).length := by
          rw [List.length_append, hsl, e']
          omega
        rw [if_pos hcond]
        have htake : (sealSegment key ctr false (pt.take BACKUP_BUFFER_LEN_ENCRYPT) ++
            encryptStream key (ctr + 1) (pt.drop BACKUP_BUFFER_LEN_ENCRYPT)).take
              BACKUP_BUFFER_LEN_DECRYPT =
            sealSegment key ctr false (pt.take BACKUP_BUFFER_LEN_ENCRYPT) := by
          rw [e', ← hsl]
          exact List.take_left _ _
        have hdrop : (sealSegment key ctr false (pt.take BACKUP_BUFFER_LEN_ENCRYPT) ++
            encryptStream key (ctr + 1) (pt.drop BACKUP_BUFFER_LEN_ENCRYPT)).drop
              BACKUP_BUFFER_LEN_DECRYPT =
            encryptStream key (ctr + 1) (pt.drop BACKUP_BUFFER_LEN_ENCRYPT) := by
          rw [e', ← hsl]
          exact List.drop_left _ _
        rw [htake, hdrop, openSeg_sealSegment]
        have hih : decryptLoop key (ctr + 1)
              (encryptStream key (ctr + 1) (pt.drop BACKUP_BUFFER_LEN_ENCRYPT)) =
            Res.ok (pt.drop BACKUP_BUFFER_LEN_ENCRYPT) := by
          apply ih
          rw [List.length_drop]
          rw [e] at hbig ⊢
          omega
        rw [hih]
        simp [List.take_append_drop]
      · have hstream : encryptStream key ctr pt = sealSegment key ctr true pt := by
          rw [encryptStream, encryptSegs_eq, if_neg hbig]
          simp
        rw [hstream, decryptLoop_eq]
        have hlen : (sealSegment key ctr true pt).length = pt.length + 16 :=
          sealSegment_length key ctr true pt
        have hcond : ¬ BACKUP_BUFFER_LEN_DECRYPT ≤ (sealSegment key ctr true pt).length := by
          rw [hlen, e']
          rw [e] at hbig
          omega
        rw [if_neg hcond]
        have hnz : ¬ (sealSegment key ctr true pt).length = 0 := by
          rw [hlen]
          omega
        rw [if_neg hnz, openSeg_sealSegment]
  exact main (pt.length + 1) pt ctr (by omega)

lemma readN_append (l r : List Nat) : readN l.length (l ++ r) = some (l, r) := by
  induction l with
  | nil => simp [readN]
  | cons x xs ih => simp [readN, ih]

lemma decodeComp_encode (c : Comp) (r : List Nat) :
    decodeComp (encodeComp c ++ r) = some (c, r) := by
  simp [decodeComp, encodeComp, readN_append]

lemma decodeComps_encode (cs : List Comp) (r : List Nat) :
    decodeComps cs.length (encodeComps cs ++ r) = some (cs, r) := by
  induction cs generalizing r with
  | nil => simp [decodeComps, encodeComps]
  | cons c cs ih =>
    simp only [encodeComps, List.map_cons, List.flatten_cons, List.append_assoc,
      List.length_cons]
    simp only [decodeComps, decodeComp_encode]
    have := ih r
    simp only [encodeComps] at this
    simp [this]

lemma decodePath_encode (p : List Comp) (r : List Nat) :
    decodePath (encodePath p ++ r) = some (p, r) := by
  simp [decodePath, encodePath, decodeComps_encode]

lemma decodeEntry_encode (en : ZEntry) (r : List Nat) :
    decodeEntry (encodeEntry en ++ r) = some (en, r) := by
  obtain ⟨p, d, c⟩ := en
  cases d <;>
    simp [encodeEntry, decodeEntry, List.append_assoc, decodePath_encode, readN_append]

lemma decodeEntriesGo_encode (es : List ZEntry) (r : List Nat) :
    decodeEntriesGo es.length ((es.map encodeEntry).flatten ++ r) = some (es, r) := by
  induction es generalizing r with
  | nil => simp [decodeEntriesGo]
  | cons en es ih =>
    simp only [List.map_cons, List.flatten_cons, List.append_assoc, List.length_cons]
    simp [decodeEntriesGo, decodeEntry_encode, ih]

lemma unzipBytes_zipBytes (es : List ZEntry) : unzipBytes (zipBytes es) = some es := by
  have h := decodeEntriesGo_encode es []
  rw [List.append_nil] at h
  simp [unzipBytes, zipBytes, h]

lemma decodeScryptParams_encode (sp : ScryptParams) :
    decodeScryptParams (encodeScryptParams sp) = some sp := by
  obtain ⟨a, b, c, d, s⟩ := sp
  have h := readN_append s []
  rw [List.append_nil] at h
  simp [encodeScryptParams, decodeScryptParams, h]

lemma normComps_clean : ∀ (p acc : List Comp), (∀ c ∈ p, cleanComp c) →
    normComps acc p = some (acc ++ p) := by
  intro p
  induction p with
  | nil => intro acc _; simp [normComps]
  | cons c cs ih =>
    intro acc hall
    have hc : cleanComp c := hall c (by simp)
    simp only [cleanComp, Bool.and_eq_true, Bool.not_eq_true', beq_eq_false_iff_ne,
      ne_eq] at hc
    obtain ⟨⟨⟨hne, hdot⟩, hdotdot⟩, hnul⟩ := hc
    simp only [normComps]
    rw [if_neg hdotdot, if_neg (by tauto), if_neg (by rw [hnul]; simp)]
    have := ih (acc ++ [c]) (fun x hx => hall x (by simp [hx]))
    simpa using this

lemma enclosedName_clean (p : List Comp) (h : ∀ c ∈ p, cleanComp c) :
    enclosedName p = some p := by
  simpa [enclosedName] using normComps_clean p [] h

lemma unzipEntries_eq (es : List ZEntry) :
    unzipEntries es = Res.ok (es.filterMap entryAction) := by
  induction es with
  | nil => simp [unzipEntries]
  | cons en es ih =>
    cases h : entryAction en <;> simp [unzipEntries, ih, List.filterMap_cons, h]

lemma getCypherSecrets_ok (password : List Byte) (sp : ScryptParams) (nonceStr : List Byte)
    (hsalt : saltFromB64 sp.salt = some sp.salt)
    (hvalid : scryptParamsValid sp.log_n sp.r sp.p sp.len = true)
    (hlen : sp.len = 32)
    (hnonce : BACKUP_NONCE_LENGTH ≤ nonceStr.length) :
    getCypherSecrets password sp nonceStr =
      Res.ok ⟨hashPassword password sp.salt sp.log_n sp.r sp.p sp.len,
              nonceStr.take BACKUP_NONCE_LENGTH⟩ := by
  have hhash : (hashPassword password sp.salt sp.log_n sp.r sp.p sp.len).length = 32 := by
    simp [hashPassword, hlen]
  simp [getCypherSecrets, hsalt, tryIntoParams, hvalid, hhash, hnonce]

-- ### Concrete test data shared by witnesses and counterexamples

/-- A valid 32-character salt (32 times `A`). -/
def saltTest : List Byte := List.replicate 32 65

/-- Scrypt parameters with the source defaults `(17, 8, 1, 32)` and a valid
salt. -/
def spTest : ScryptParams := ⟨17, 8, 1, 32, saltTest⟩

/-- A 19-byte nonce string (19 times `0`). -/
def nonceTest : List Byte := List.replicate 19 48

/-- The component `wallet`. -/
def walletTest : Comp := [119, 97, 108, 108, 101, 116]

/-- The component `log`. -/
def logTest : Comp := [108, 111, 103]

/-- A small wallet tree: a subdirectory `d`, a file `d/a`, and a log file
`log`. -/
def nodesTest : List Node :=
  [Node.dir [[100]], Node.file [[100], [97]] [65, 66], Node.file [logTest] [9, 9]]

/-- An archive entry named `../evil`, whose resolved path escapes the
extraction directory. -/
def evilEntry : ZEntry := ⟨[dotdotC, [101, 118, 105, 108]], false, [1, 2, 3]⟩

-- ### C2

/-- C2: the encrypted stream produced by the `_encrypt_file` loop consists
of `L / 239` non-final segments of exactly 255 bytes followed by one final
segment of `L % 239 + 16` bytes; when `L` is an exact multiple of 239 the
final segment is an explicit empty one of 16 bytes (`L % 239 = 0`). -/
theorem encrypt_segment_layout (key : List Byte) (ctr : Nat) (input : List Byte) :
    (encryptSegs key ctr input).length = input.length / BACKUP_BUFFER_LEN_ENCRYPT + 1 ∧
    (∀ s ∈ (encryptSegs key ctr input).dropLast, s.length = BACKUP_BUFFER_LEN_DECRYPT) ∧
    ((encryptSegs key ctr input).getLast?).map List.length =
      some (input.length % BACKUP_BUFFER_LEN_ENCRYPT + 16) := by
  have e : BACKUP_BUFFER_LEN_ENCRYPT = 239 := rfl
  have main : ∀ n (input : List Byte) ctr, input.length < n →
      (encryptSegs key ctr input).length = input.length / BACKUP_BUFFER_LEN_ENCRYPT + 1 ∧
      (∀ s ∈ (encryptSegs key ctr input).dropLast, s.length = BACKUP_BUFFER_LEN_DECRYPT) ∧
      ((encryptSegs key ctr input).getLast?).map List.length =
        some (input.length % BACKUP_BUFFER_LEN_ENCRYPT + 16) := by
    intro n
    induction n with
    | zero => intro input ctr h; exact absurd h (Nat.not_lt_zero _)
    | succ m ih =>
      intro input ctr h
      by_cases hbig : BACKUP_BUFFER_LEN_ENCRYPT ≤ input.length
      · obtain ⟨ihlen, ihdrop, ihlast⟩ := ih (input.drop BACKUP_BUFFER_LEN_ENCRYPT) (ctr + 1)
          (by rw [List.length_drop]; rw [e] at hbig ⊢; omega)
        have hne : encryptSegs key (ctr + 1) (input.drop BACKUP_BUFFER_LEN_ENCRYPT) ≠ [] := by
          intro hnil
          rw [hnil] at ihlen
          simp at ihlen
        have hsl : (sealSegment key ctr false (input.take BACKUP_BUFFER_LEN_ENCRYPT)).length
            = BACKUP_BUFFER_LEN_DECRYPT := by
          rw [sealSegment_length, List.length_take]
          rw [e] at hbig ⊢
          show min 239 input.length + 16 = 255
          omega
        cases hrest : encryptSegs key (ctr + 1) (input.drop BACKUP_BUFFER_LEN_ENCRYPT) with
        | nil => exact absurd hrest hne
        | cons b bs =>
          rw [encryptSegs_eq, if_pos hbig, hrest]
          rw [hrest] at ihlen ihdrop ihlast
          refine ⟨?_, ?_, ?_⟩
          · rw [List.length_cons, ihlen, List.length_drop]
            rw [e] at hbig ⊢
            rw [Nat.div_eq_sub_div (by omega) hbig]
          · intro s hs
            rw [show (sealSegment key ctr false (input.take BACKUP_BUFFER_LEN_ENCRYPT)
                :: b :: bs).dropLast =
                sealSegment key ctr false (input.take BACKUP_BUFFER_LEN_ENCRYPT)
                  :: (b :: bs).dropLast from rfl] at hs
            rcases List.mem_cons.mp hs with h1 | h2
            · rw [h1]; exact hsl
            · exact ihdrop s h2
          · rw [List.getLast?_cons_cons, ihlast, List.length_drop]
            rw [e] at hbig ⊢
            rw [Nat.mod_eq_sub_mod hbig]
      · rw [encryptSegs_eq, if_neg hbig]
        push_neg at hbig
        refine ⟨?_, ?_, ?_⟩
        · simp [Nat.div_eq_of_lt hbig]
        · intro s hs
          simp at hs
        · simp [sealSegment_length, Nat.mod_eq_of_lt hbig]
  exact main (input.length + 1) input ctr (by omega)

/-- Witness for C2 at a concrete 250-byte plaintext: one 255-byte non-final
segment and an 11+16-byte final segment. -/
theorem encrypt_segment_layout_witness :
    (encryptSegs [3, 1] 0 (List.replicate 250 7)).length =
      (List.replicate (α := Byte) 250 7).length / BACKUP_BUFFER_LEN_ENCRYPT + 1 :=
  (encrypt_segment_layout [3, 1] 0 (List.replicate 250 7)).1

-- ### C3

/-- C3: every error exit of the `_decrypt_file` segment loop — a
`decrypt_next` failure on a non-final segment or a `decrypt_last` failure
on the final one — is `WrongPassword`; no other error value can be
produced by the loop. -/
theorem decrypt_error_is_wrong_password (key : List Byte) (ctr : Nat) (ct : List Byte) :
    (∃ pt, decryptLoop key ctr ct = Res.ok pt) ∨
      decryptLoop key ctr ct = Res.err Error.WrongPassword := by
  have main : ∀ fuel ctr (input : List Byte),
      (∃ pt, decryptGo key fuel ctr input = Res.ok pt) ∨
        decryptGo key fuel ctr input = Res.err Error.WrongPassword := by
    intro fuel
    induction fuel with
    | zero => intro ctr input; exact Or.inl ⟨[], rfl⟩
    | succ f ih =>
      intro ctr input
      simp only [decryptGo]
      by_cases hbig : BACKUP_BUFFER_LEN_DECRYPT ≤ input.length
      · rw [if_pos hbig]
        cases hopen : openSeg key ctr false (input.take BACKUP_BUFFER_LEN_DECRYPT) with
        | none => exact Or.inr rfl
        | some pt =>
          rcases ih (ctr + 1) (input.drop BACKUP_BUFFER_LEN_DECRYPT) with ⟨pt', hok⟩ | herr
          · exact Or.inl ⟨pt ++ pt', by rw [hok]⟩
          · exact Or.inr (by rw [herr])
      · rw [if_neg hbig]
        by_cases h0 : input.length = 0
        · rw [if_pos h0]
          exact Or.inl ⟨[], rfl⟩
        · rw [if_neg h0]
          cases hopen : openSeg key ctr true input with
          | none => exact Or.inr rfl
          | some pt => exact Or.inl ⟨pt, rfl⟩
  exact main (ct.length + 1) ctr ct

-- ### C4

/-- C4: when the target path already exists, `backup_custom_params` fails
with `FileAlreadyExists` carrying that path and the filesystem state is
returned unchanged — the existence check is the first filesystem
interaction of the call. -/
theorem backup_refuses_existing_path (fs : FS) (backupPath : String) (walletName : Comp)
    (nodes : List Node) (password : List Byte) (sp : ScryptParams) (nonceStr : List Byte)
    (logName : Comp) (h : (fs.lookup backupPath).isSome) :
    backupCustomParams fs backupPath walletName nodes password sp nonceStr logName =
      (Res.err (Error.FileAlreadyExists backupPath), fs) := by
  simp [backupCustomParams, h]

/-- Witness for C4: a one-file filesystem already holding the target. -/
theorem backup_refuses_existing_path_witness :
    backupCustomParams [("wallet.rgb-lib_backup", [1, 2])] "wallet.rgb-lib_backup"
        walletTest nodesTest [112] spTest nonceTest logTest =
      (Res.err (Error.FileAlreadyExists "wallet.rgb-lib_backup"),
        [("wallet.rgb-lib_backup", [1, 2])]) :=
  backup_refuses_existing_path _ _ _ _ _ _ _ _ (by decide)

-- ### C9

/-- C9: a stored `len` of 16 — a value the scrypt validator accepts — drives
`_get_cypher_secrets` into a panic at `Key::clone_from_slice` (the 16-byte
hash cannot fill the 32-byte key), instead of the hard error the spec
promises for every `len ≠ 32`. -/
theorem stored_len_16_panics :
    getCypherSecrets [112, 119] ⟨17, 8, 1, 16, saltTest⟩ nonceTest =
      Res.panicked "length mismatch in clone_from_slice" := by decide

-- ### C10

/-- C10: with a valid salt and valid parameters of length 32, a stored
nonce string shorter than 19 bytes makes `_get_cypher_secrets` panic at the
slice index `nonce_bytes[0..19]` instead of returning an error. -/
theorem short_nonce_panics (password : List Byte) (sp : ScryptParams) (nonceStr : List Byte)
    (hsalt : saltFromB64 sp.salt = some sp.salt)
    (hvalid : scryptParamsValid sp.log_n sp.r sp.p sp.len = true)
    (hlen : sp.len = 32)
    (hnonce : nonceStr.length < BACKUP_NONCE_LENGTH) :
    getCypherSecrets password sp nonceStr = Res.panicked "slice index out of range" := by
  have hhash : (hashPassword password sp.salt sp.log_n sp.r sp.p sp.len).length = 32 := by
    simp [hashPassword, hlen]
  have h19 : ¬ BACKUP_NONCE_LENGTH ≤ nonceStr.length := by omega
  simp [getCypherSecrets, hsalt, tryIntoParams, hvalid, hhash, h19]

/-- Witness for C10: an 18-byte nonce panics. -/
theorem short_nonce_panics_witness :
    getCypherSecrets [112] spTest (List.replicate 18 48) =
      Res.panicked "slice index out of range" :=
  short_nonce_panics _ _ _ (by decide) (by decide) (by decide) (by decide)

-- ### Evaluation lemmas for the outer container

lemma entryAction_enc (c0 : List Byte) :
    entryAction ⟨[encName], false, c0⟩ = some (FsAction.writeFile [encName] c0) := rfl

lemma entryAction_nonce (c0 : List Byte) :
    entryAction ⟨[nonceName], false, c0⟩ = some (FsAction.writeFile [nonceName] c0) := rfl

lemma entryAction_params (c0 : List Byte) :
    entryAction ⟨[paramsName], false, c0⟩ = some (FsAction.writeFile [paramsName] c0) := rfl

lemma entryAction_version (c0 : List Byte) :
    entryAction ⟨[versionName], false, c0⟩ = some (FsAction.writeFile [versionName] c0) := rfl

lemma readSidecar_enc (a b c d : List Byte) :
    readSidecar [FsAction.writeFile [encName] a, FsAction.writeFile [nonceName] b,
      FsAction.writeFile [paramsName] c, FsAction.writeFile [versionName] d] encName =
      some a := rfl

lemma readSidecar_nonce (a b c d : List Byte) :
    readSidecar [FsAction.writeFile [encName] a, FsAction.writeFile [nonceName] b,
      FsAction.writeFile [paramsName] c, FsAction.writeFile [versionName] d] nonceName =
      some b := rfl

lemma readSidecar_params (a b c d : List Byte) :
    readSidecar [FsAction.writeFile [encName] a, FsAction.writeFile [nonceName] b,
      FsAction.writeFile [paramsName] c, FsAction.writeFile [versionName] d] paramsName =
      some c := rfl

lemma readSidecar_version (a b c d : List Byte) :
    readSidecar [FsAction.writeFile [encName] a, FsAction.writeFile [nonceName] b,
      FsAction.writeFile [paramsName] c, FsAction.writeFile [versionName] d] versionName =
      some d := rfl

lemma restore_sidecar_eval (encB nonceB paramsB versionB : List Byte) (password : List Byte) :
    restoreBackup (zipBytes [⟨[encName], false, encB⟩, ⟨[nonceName], false, nonceB⟩,
        ⟨[paramsName], false, paramsB⟩, ⟨[versionName], false, versionB⟩]) password =
      (match decodeScryptParams paramsB with
       | none => Res.err (Error.Internal "JSON parse error")
       | some sp =>
         match parseU8 versionB with
         | none => Res.err (Error.Internal "unexpected")
         | some version =>
           if version ≠ BACKUP_VERSION then
             Res.err (Error.UnsupportedBackupVersion (toString version))
           else
             match decryptFile password sp nonceB encB with
             | Res.err e => Res.err e
             | Res.panicked m => Res.panicked m
             | Res.ok innerBytes =>
               match unzipBytes innerBytes with
               | none => Res.err (Error.Internal "invalid Zip archive")
               | some innerEntries => unzipEntries innerEntries) := by
  simp only [restoreBackup, unzipBytes_zipBytes, unzipEntries_eq, List.filterMap_cons,
    List.filterMap_nil, entryAction_enc, entryAction_nonce, entryAction_params,
    entryAction_version, readSidecar_enc, readSidecar_nonce, readSidecar_params,
    readSidecar_version]

-- ### C5

/-- The outer container of a backup whose version entry holds the three
bytes `256`. -/
def versionBadContainer : List Byte :=
  zipBytes [⟨[encName], false, [1, 2, 3]⟩, ⟨[nonceName], false, nonceTest⟩,
            ⟨[paramsName], false, encodeScryptParams spTest⟩,
            ⟨[versionName], false, [50, 53, 54]⟩]

/-- Counterexample for C5: a version entry holding `256` — a value other
than `1` — makes restore fail with `Internal` (the `u8` parse fails and is
mapped to `InternalError::Unexpected`), not with `UnsupportedBackupVersion`
carrying that value. -/
theorem version_256_internal :
    restoreBackup versionBadContainer [112] = Res.err (Error.Internal "unexpected") := by
  rw [versionBadContainer, restore_sidecar_eval, decodeScryptParams_encode]
  decide

/-- C5 amended: for a well-formed container whose version entry parses as
an unsigned 8-bit integer `v ≠ 1`, restore fails with
`UnsupportedBackupVersion` carrying `v`; version entries that fail the u8
parse (non-numeric, or numerically out of the 8-bit range like `256`) fail
with `Internal` instead. -/
theorem version_gate (encB nonceB : List Byte) (sp : ScryptParams) (versionB : List Byte)
    (password : List Byte) (v : Nat) (hv : parseU8 versionB = some v)
    (hne : v ≠ BACKUP_VERSION) :
    restoreBackup (zipBytes [⟨[encName], false, encB⟩, ⟨[nonceName], false, nonceB⟩,
        ⟨[paramsName], false, encodeScryptParams sp⟩, ⟨[versionName], false, versionB⟩])
      password = Res.err (Error.UnsupportedBackupVersion (toString v)) := by
  rw [restore_sidecar_eval, decodeScryptParams_encode]
  simp [hv, hne]

/-- Witness for C5 at version entry `2`. -/
theorem version_gate_witness :
    restoreBackup (zipBytes [⟨[encName], false, [1]⟩, ⟨[nonceName], false, nonceTest⟩,
        ⟨[paramsName], false, encodeScryptParams spTest⟩, ⟨[versionName], false, [50]⟩])
      [112] = Res.err (Error.UnsupportedBackupVersion (toString 2)) :=
  version_gate [1] nonceTest spTest [50] [112] 2 (by decide) (by decide)

-- ### C6

/-- Counterexample for C6: on a parameter tuple the validator rejects
(`r = 0`), key derivation returns the `Internal` error kind (with the
message merely prefixed by `invalid params`), not the distinct
`InvalidParams` kind the spec's taxonomy promises. -/
theorem invalid_params_internal_counterexample :
    getCypherSecrets [112] ⟨17, 0, 1, 32, saltTest⟩ nonceTest =
      Res.err (Error.Internal ("invalid params " ++ scryptInvalidMsg)) := by decide

/-- C6 amended: for every parameter tuple the KDF validator rejects, key
derivation returns the `Internal` error kind whose details are the
underlying validator message prefixed by `invalid params `; there is no
separate `InvalidParams` result in the code. -/
theorem kdf_rejection_internal (password : List Byte) (sp : ScryptParams)
    (nonceStr : List Byte)
    (hsalt : saltFromB64 sp.salt = some sp.salt)
    (hinvalid : scryptParamsValid sp.log_n sp.r sp.p sp.len = false) :
    getCypherSecrets password sp nonceStr =
      Res.err (Error.Internal ("invalid params " ++ scryptInvalidMsg)) := by
  simp [getCypherSecrets, hsalt, tryIntoParams, hinvalid]

/-- Witness for C6 at `p = 0`. -/
theorem kdf_rejection_internal_witness :
    getCypherSecrets [113] ⟨17, 8, 0, 32, List.replicate 32 66⟩ nonceTest =
      Res.err (Error.Internal ("invalid params " ++ scryptInvalidMsg)) :=
  kdf_rejection_internal _ _ _ (by decide) (by decide)

-- ### C7

/-- Counterexample for C7: the `../evil` entry is silently skipped by the
unzip loop — the result is success with no action performed — rather than
rejected with the `Internal` error kind. -/
theorem traversal_entry_skipped :
    unzipEntries [evilEntry] = Res.ok [] := by decide

lemma normComps_sound : ∀ (p acc q : List Comp), (∀ c ∈ acc, cleanComp c) →
    normComps acc p = some q → ∀ c ∈ q, cleanComp c := by
  intro p
  induction p with
  | nil =>
    intro acc q hacc hq
    simp only [normComps, Option.some_inj] at hq
    rw [← hq]
    exact hacc
  | cons c cs ih =>
    intro acc q hacc hq
    simp only [normComps] at hq
    by_cases hdd : c = dotdotC
    · rw [if_pos hdd] at hq
      cases hachd : acc with
      | nil => rw [hachd] at hq; exact absurd hq (by simp)
      | cons a as =>
        rw [hachd] at hq
        exact ih (a :: as).dropLast q
          (fun x hx => hacc x (by rw [hachd]; exact List.dropLast_subset _ hx)) hq
    · rw [if_neg hdd] at hq
      by_cases hskip : c = [] ∨ c = dotC
      · rw [if_pos hskip] at hq
        exact ih acc q hacc hq
      · rw [if_neg hskip] at hq
        by_cases hnul : c.contains 0
        · rw [if_pos hnul] at hq
          exact absurd hq (by simp)
        · rw [if_neg hnul] at hq
          push_neg at hskip
          have hcclean : cleanComp c := by
            simp [cleanComp, hskip.1, hskip.2, hdd, Bool.not_eq_true] at *
            simp_all
          refine ih (acc ++ [c]) q (fun x hx => ?_) hq
          rcases List.mem_append.mp hx with h1 | h2
          · exact hacc x h1
          · rw [List.mem_singleton.mp h2]
            exact hcclean

/-- C7 amended: the unzip loop never signals an error for an entry name:
it extracts every entry whose name has a safe normalized form and silently
skips (`continue`) every entry whose resolved path would escape the output
directory or is otherwise unsafe; every performed action lives at the safe
normalized path, whose components are all clean (no `..`, no empty, no
NUL), so no write leaves the output directory. -/
theorem unzip_traversal_skipped (es : List ZEntry) :
    unzipEntries es = Res.ok (es.filterMap entryAction) ∧
    (∀ en ∈ es, enclosedName en.path = none → entryAction en = none) ∧
    (∀ en ∈ es, ∀ a, entryAction en = some a →
      ∃ p, enclosedName en.path = some p ∧ ∀ c ∈ p, cleanComp c) := by
  refine ⟨unzipEntries_eq es, ?_, ?_⟩
  · intro en _ hnone
    simp [entryAction, hnone]
  · intro en _ a ha
    rcases hencl : enclosedName en.path with _ | p
    · rw [entryAction, hencl] at ha
      exact absurd ha (by simp)
    · exact ⟨p, rfl, normComps_sound en.path [] p (by simp) hencl⟩

/-- Witness for C7: the skip branch at the concrete `../evil` entry. -/
theorem unzip_traversal_skipped_witness :
    entryAction evilEntry = none :=
  (unzip_traversal_skipped [evilEntry]).2.1 evilEntry (by simp) (by decide)

-- ### C8

/-- Counterexample for C8: a zero-byte `backup.enc` is not rejected — the
first read of the decrypt loop returns 0 bytes and the loop terminates
successfully, producing an empty plaintext output. -/
theorem empty_ciphertext_accepted :
    decryptFile [112] spTest nonceTest [] = Res.ok [] := by decide

/-- C8 amended: a ciphertext stream of 1 to 15 bytes is malformed and the
decrypt loop fails with `WrongPassword` (the final segment is shorter than
the 16-byte tag); the zero-byte stream, however, is accepted by the loop
and yields empty plaintext output. -/
theorem short_ciphertext_decrypt (key : List Byte) (ctr : Nat) (ct : List Byte)
    (h : ct.length < 16) :
    decryptLoop key ctr ct =
      if ct.length = 0 then Res.ok [] else Res.err Error.WrongPassword := by
  rw [decryptLoop_eq]
  have e' : BACKUP_BUFFER_LEN_DECRYPT = 255 := rfl
  have h1 : ¬ BACKUP_BUFFER_LEN_DECRYPT ≤ ct.length := by omega
  rw [if_neg h1]
  by_cases h0 : ct.length = 0
  · simp [h0]
  · have hopen : openSeg key ctr true ct = none := by
      simp [openSeg, h]
    simp [h0, hopen]

/-- Witness for C8: a single-byte ciphertext fails with `WrongPassword`. -/
theorem short_ciphertext_decrypt_witness :
    decryptLoop [5] 0 [9] = Res.err Error.WrongPassword := by
  have h := short_ciphertext_decrypt [5] 0 [9] (by decide)
  simpa using h

-- ### C1

lemma pathEndsWith_single (x name : Comp) : pathEndsWith [x] name = (x == name) := by
  simp [pathEndsWith]

lemma zipDir_outer (walletName : Comp) (logName : Comp)
    (encB nonceB paramsB versionB : List Byte)
    (h1 : encName ≠ logName) (h2 : nonceName ≠ logName) (h3 : paramsName ≠ logName)
    (h4 : versionName ≠ logName) :
    zipDir walletName
      [Node.dir [], Node.file [encName] encB, Node.file [nonceName] nonceB,
       Node.file [paramsName] paramsB, Node.file [versionName] versionB] false logName =
      [⟨[encName], false, encB⟩, ⟨[nonceName], false, nonceB⟩,
       ⟨[paramsName], false, paramsB⟩, ⟨[versionName], false, versionB⟩] := by
  simp [zipDir, nodeEntry, List.filterMap_cons, pathEndsWith_single, h1, h2, h3, h4]

lemma restore_actions (walletName logName : Comp) (hwn : cleanComp walletName) :
    ∀ nodes : List Node, (∀ n ∈ nodes, ∀ c ∈ nodePath n, cleanComp c) →
      (nodes.filterMap (nodeEntry true walletName logName)).filterMap entryAction =
        nodes.filterMap (fun n =>
          match n with
          | Node.file p c =>
            if pathEndsWith p logName then none
            else some (FsAction.writeFile (walletName :: p) c)
          | Node.dir p => some (FsAction.mkdir (walletName :: p))) := by
  intro nodes
  induction nodes with
  | nil => simp
  | cons n ns ih =>
    intro hclean
    have hn := hclean n (by simp)
    have hns : ∀ m ∈ ns, ∀ c ∈ nodePath m, cleanComp c :=
      fun m hm => hclean m (by simp [hm])
    have hcleancons : ∀ p : List Comp, (∀ c ∈ p, cleanComp c) →
        enclosedName (walletName :: p) = some (walletName :: p) := by
      intro p hp
      refine enclosedName_clean _ (fun x hx => ?_)
      rcases List.mem_cons.mp hx with h1 | h2
      · rw [h1]; exact hwn
      · exact hp x h2
    cases n with
    | file p c =>
      by_cases hlp : pathEndsWith p logName
      · simp [nodeEntry, hlp, List.filterMap_cons, ih hns]
      · have hencl := hcleancons p (by simpa [nodePath] using hn)
        simp [nodeEntry, hlp, List.filterMap_cons, entryAction, hencl, ih hns]
    | dir p =>
      have hencl := hcleancons p (by simpa [nodePath] using hn)
      simp [nodeEntry, List.filterMap_cons, entryAction, hencl, ih hns]

lemma parse_version_tag : parseU8 (versionBytes BACKUP_VERSION) = some BACKUP_VERSION := by
  decide

/-- C1: for every wallet tree whose component names are clean (as every
name produced by the wallet is), every password, every valid salt and
32-byte-output parameter set, and every 19-byte nonce, restoring the
backup container written by `backup` with the same password reproduces the
original tree byte-for-byte under the target directory — the wallet
directory name, every subdirectory, and every file with unchanged
contents — excluding only the files named by the designated log
filename. -/
theorem backup_restore_roundtrip (walletName : Comp) (nodes : List Node)
    (password : List Byte) (sp : ScryptParams) (nonceStr : List Byte) (logName : Comp)
    (hsalt : saltFromB64 sp.salt = some sp.salt)
    (hvalid : scryptParamsValid sp.log_n sp.r sp.p sp.len = true)
    (hlen32 : sp.len = 32)
    (hnonce : nonceStr.length = BACKUP_NONCE_LENGTH)
    (hwn : cleanComp walletName)
    (hclean : ∀ n ∈ nodes, ∀ c ∈ nodePath n, cleanComp c)
    (hlog1 : encName ≠ logName) (hlog2 : nonceName ≠ logName)
    (hlog3 : paramsName ≠ logName) (hlog4 : versionName ≠ logName) :
    backupThenRestore walletName nodes password sp nonceStr logName =
      Res.ok (restoredTree walletName nodes logName) := by
  have hsec := getCypherSecrets_ok password sp nonceStr hsalt hvalid hlen32 (by omega)
  have htake : nonceStr.take BACKUP_NONCE_LENGTH = nonceStr := by
    rw [← hnonce]
    exact List.take_length _
  rw [htake] at hsec
  have henc : encryptFile password sp nonceStr
        (zipBytes (zipDir walletName (Node.dir [] :: nodes) true logName)) =
      Res.ok (encryptStream (hashPassword password sp.salt sp.log_n sp.r sp.p sp.len) 0
        (zipBytes (zipDir walletName (Node.dir [] :: nodes) true logName))) := by
    rw [encryptFile, hsec]
  have hbc : backupContainer walletName nodes password sp nonceStr logName =
      Res.ok (zipBytes
        [⟨[encName], false,
          encryptStream (hashPassword password sp.salt sp.log_n sp.r sp.p sp.len) 0
            (zipBytes (zipDir walletName (Node.dir [] :: nodes) true logName))⟩,
         ⟨[nonceName], false, nonceStr⟩,
         ⟨[paramsName], false, encodeScryptParams sp⟩,
         ⟨[versionName], false, versionBytes BACKUP_VERSION⟩]) := by
    rw [backupContainer]
    simp only [henc]
    rw [zipDir_outer walletName logName _ nonceStr (encodeScryptParams sp)
      (versionBytes BACKUP_VERSION) hlog1 hlog2 hlog3 hlog4]
  have hdec : decryptFile password sp nonceStr
        (encryptStream (hashPassword password sp.salt sp.log_n sp.r sp.p sp.len) 0
          (zipBytes (zipDir walletName (Node.dir [] :: nodes) true logName))) =
      Res.ok (zipBytes (zipDir walletName (Node.dir [] :: nodes) true logName)) := by
    rw [decryptFile, hsec]
    exact decryptLoop_encryptStream _ _ _
  rw [backupThenRestore]
  simp only [hbc]
  rw [restore_sidecar_eval]
  simp only [decodeScryptParams_encode, parse_version_tag]
  rw [if_neg (show ¬ BACKUP_VERSION ≠ BACKUP_VERSION from by simp)]
  simp only [hdec]
  simp only [unzipBytes_zipBytes]
  rw [unzipEntries_eq]
  have hroot : nodeEntry true walletName logName (Node.dir []) =
      some ⟨[walletName], true, []⟩ := by
    simp [nodeEntry]
  have hrootact : entryAction ⟨[walletName], true, []⟩ =
      some (FsAction.mkdir [walletName]) := by
    have hencl : enclosedName [walletName] = some [walletName] :=
      enclosedName_clean _ (by intro x hx; rw [List.mem_singleton.mp hx]; exact hwn)
    simp [entryAction, hencl]
  rw [zipDir]
  simp only [List.filterMap_cons, hroot, hrootact]
  rw [restore_actions walletName logName hwn nodes hclean]
  rw [restoredTree]

/-- Witness for C1: a concrete wallet with a subdirectory, a file, and a
log file (which the restored tree omits). -/
theorem backup_restore_roundtrip_witness :
    backupThenRestore walletTest nodesTest [112, 119] spTest nonceTest logTest =
      Res.ok (restoredTree walletTest nodesTest logTest) :=
  backup_restore_roundtrip walletTest nodesTest [112, 119] spTest nonceTest logTest
    (by decide) (by decide) (by decide) (by decide) (by decide) (by decide)
    (by decide) (by decide) (by decide) (by decide)
